import Mathlib

/-!
# Verification of the `imylu/utils.py` partition utilities

This file gives a shallow embedding of the functions of `imylu/utils.py`
that the specification's claims are about, and proves (or refutes) each
claim against that embedding.

Conventions of the embedding:
* Python lists of numbers become `List α` for a linear order `α`
  (the source stores `int`/`float`; all operations used are order
  comparisons, so any linear order models them).
* Python indexing `nums[i]` (which accepts negative indices by
  wrap-around and raises `IndexError` otherwise) becomes `pyGet`,
  returning `Option`; `none` models the raised `IndexError`.
* The unbounded `while` loops of `split_list` are run on explicit fuel;
  `PyRes.timeout` marks fuel exhaustion (never reached in any execution
  relevant to the claims, as the sufficiency lemmas show) and
  `PyRes.err` marks a raised `IndexError`.
-/

/-- Resolve a Python index `i` into a list of length `n`: non-negative
indices must be `< n`, negative indices wrap by adding `n`, anything
else is an `IndexError` (`none`). -/
def pyIdx (n : Nat) (i : Int) : Option Nat :=
  if 0 ≤ i then
    (if i < (n : Int) then some i.toNat else none)
  else
    (if -(n : Int) ≤ i then some (i + n).toNat else none)

/-- Python `nums[i]` (read). -/
def pyGet {α : Type} (nums : List α) (i : Int) : Option α :=
  (pyIdx nums.length i).bind fun j => nums.get? j

/-- Python `nums[i] = v` (write). -/
def pySet {α : Type} (nums : List α) (i : Int) (v : α) : Option (List α) :=
  (pyIdx nums.length i).map fun j => nums.set j v

/-- Python `nums[p], nums[q] = nums[q], nums[p]`: the right-hand tuple is
evaluated first, then the two assignments run left to right. -/
def pySwap {α : Type} (nums : List α) (p q : Int) : Option (List α) := do
  let t0 ← pyGet nums q
  let t1 ← pyGet nums p
  let n1 ← pySet nums p t0
  pySet n1 q t1

variable {α : Type} [LinearOrder α]

/-- Inner loop `while nums[p] < split: p += 1; if p > q: break_tag = 1; break`
of `split_list`.  Returns the final cursor and whether `break_tag` was set;
`none` is a raised `IndexError`.  The `Nat` argument is fuel. -/
def loopA (nums : List α) (split : α) (q : Int) : Nat → Int → Option (Int × Bool)
  | 0, _ => none
  | fuel + 1, p =>
    match pyGet nums p with
    | none => none
    | some x =>
      if x < split then
        if p + 1 > q then some (p + 1, true) else loopA nums split q fuel (p + 1)
      else
        some (p, false)

/-- Inner loop `while nums[q] >= split: q -= 1; if p > q: break_tag = 1; break`
of `split_list`. -/
def loopB (nums : List α) (split : α) (p : Int) : Nat → Int → Option (Int × Bool)
  | 0, _ => none
  | fuel + 1, q =>
    match pyGet nums q with
    | none => none
    | some x =>
      if split ≤ x then
        if p > q - 1 then some (q - 1, true) else loopB nums split p fuel (q - 1)
      else
        some (q, false)

/-- Result of a `split_list` run: the final list and returned index,
a raised `IndexError`, or fuel exhaustion. -/
inductive PyRes (α : Type) where
  | ok : List α → Int → PyRes α
  | err : PyRes α
  | timeout : PyRes α
deriving DecidableEq

/-- Fuel that is always sufficient for either inner loop started from
cursor value `c` (the cursor moves one step at a time and the loop stops
no later than when the cursor leaves `[-n-1, n]`, or crosses `bound`). -/
def iFuel {α : Type} (nums : List α) (c bound : Int) : Nat :=
  2 * nums.length + (bound + 1 - c).natAbs + (c - bound).natAbs + 2

/-- Outer `while 1` loop of `split_list`.  One fuel unit per outer
iteration; each iteration runs the two inner loops (note that in the
source the second inner loop runs even when the first one has already
set `break_tag`), then either breaks (returning `p`) or swaps. -/
def splitLoop (split : α) : Nat → List α → Int → Int → PyRes α
  | 0, _, _, _ => .timeout
  | fuel + 1, nums, p, q =>
    match loopA nums split q (iFuel nums p q + 1) p with
    | none => .err
    | some (p', tagA) =>
      match loopB nums split p' (iFuel nums q p' + 1) q with
      | none => .err
      | some (q', tagB) =>
        if tagA || tagB then .ok nums p'
        else
          match pySwap nums p' q' with
          | none => .err
          | some nums2 => splitLoop split fuel nums2 p' q'

/-- `split_list(nums, split, left, right)` from `imylu/utils.py`:
two-pointer in-place partition of `nums[left:right]` around the value
`split`; returns the final list together with the returned index `p`.
`(right - left).toNat + 2` outer iterations are always enough (proved
below for the ranges the claims quantify over). -/
def split_list (nums : List α) (split : α) (left right : Int) : PyRes α :=
  splitLoop split ((right - left).toNat + 2) nums left (right - 1)

/-- All positions `i` with `a ≤ i < b` hold a value `< v`. -/
def rangeLt (nums : List α) (v : α) (a b : Int) : Prop :=
  ∀ i : Int, a ≤ i → i < b → ∃ x, pyGet nums i = some x ∧ x < v

/-- All positions `i` with `a ≤ i < b` hold a value `≥ v`. -/
def rangeGe (nums : List α) (v : α) (a b : Int) : Prop :=
  ∀ i : Int, a ≤ i → i < b → ∃ x, pyGet nums i = some x ∧ v ≤ x

/-- The Python slice `nums[a:b]` for `0 ≤ a ≤ b ≤ len(nums)` (the only
shape of slice the specification's claims use). -/
def sliceI {β : Type} (nums : List β) (a b : Int) : List β :=
  (nums.take b.toNat).drop a.toNat

/-- The loop of `_split_list(nums, split)` from `imylu/utils.py`: pop the
front element and append it to the first bucket if it is `< split`, to
the second otherwise, until `nums` is exhausted. -/
def splitRefLoop (v : α) : List α → List α × List α → List α × List α
  | [], ret => ret
  | x :: rest, ret =>
    if x < v then splitRefLoop v rest (ret.1 ++ [x], ret.2)
    else splitRefLoop v rest (ret.1, ret.2 ++ [x])

/-- `_split_list(nums, split)` from `imylu/utils.py` (the reference
partitioner), returning the pair of buckets `ret[0], ret[1]`. -/
def refSplitList (nums : List α) (v : α) : List α × List α :=
  splitRefLoop v nums ([], [])

/-- Python `sorted(xs)` (ascending order). -/
def pySorted (xs : List α) : List α := xs.insertionSort (· ≤ ·)

/-- One assertion of `_test_split_list`:
`all(num1 == num2 for num1, num2 in zip(sorted(a), sorted(b)))`.
Note that Python's `zip` truncates to the shorter of the two lists. -/
def harnessCheck (a b : List α) : Bool :=
  ((pySorted a).zip (pySorted b)).all fun pr => pr.1 == pr.2

/-- Errors that the numeric utilities can raise. -/
inductive PyErr where
  | indexError : PyErr
  | zeroDivisionError : PyErr
deriving DecidableEq

/-- `max(a, b)` where `a` is a float that may be `-inf`: the accumulator
entries of `min_max_scale` start as `-float('inf')`, modelled by `none`
(an entry is `none` only before any row has been folded into it). -/
def omax (a : Option ℚ) (x : ℚ) : ℚ :=
  match a with
  | none => x
  | some v => max v x

/-- `min(a, b)` where `a` may be `float('inf')`, modelled by `none`. -/
def omin (a : Option ℚ) (x : ℚ) : ℚ :=
  match a with
  | none => x
  | some v => min v x

/-- `x_max = [max(a, b) for a, b in zip(x_max, row)]` (zip truncates). -/
def foldMax (acc : List (Option ℚ)) (row : List ℚ) : List (Option ℚ) :=
  List.zipWith (fun a x => some (omax a x)) acc row

/-- `x_min = [min(a, b) for a, b in zip(x_min, row)]` (zip truncates). -/
def foldMin (acc : List (Option ℚ)) (row : List ℚ) : List (Option ℚ) :=
  List.zipWith (fun a x => some (omin a x)) acc row

/-- `[(x - b)/(a - b) for a, b, x in zip(x_max, x_min, row)]`, evaluated
left to right; a zero denominator raises `ZeroDivisionError`.  The `none`
branches are unreachable: an accumulator entry is `none` only when no row
was folded into it, and then `min_max_scale` has already raised at `X[0]`;
the value chosen there is immaterial. -/
def scaleRow : List (Option ℚ) → List (Option ℚ) → List ℚ → Except PyErr (List ℚ)
  | some a :: as, some b :: bs, x :: xs =>
    if a - b = 0 then .error .zeroDivisionError
    else do
      let rest ← scaleRow as bs xs
      pure ((x - b) / (a - b) :: rest)
  | none :: _, _ :: _, _ :: _ => .error .indexError
  | _ :: _, none :: _, _ :: _ => .error .indexError
  | _, _, _ => pure []

/-- `ret = []; for row in X: ret.append([...])` of `min_max_scale`;
the first raised error aborts the loop. -/
def scaleRows (xmax xmin : List (Option ℚ)) : List (List ℚ) → Except PyErr (List (List ℚ))
  | [] => pure []
  | row :: rest => do
    let tmp ← scaleRow xmax xmin row
    let ret ← scaleRows xmax xmin rest
    pure (tmp :: ret)

/-- `min_max_scale(X)` from `imylu/utils.py`: column-wise min–max
normalisation.  `len(X[0])` raises `IndexError` on an empty `X`; a
constant column makes the division raise `ZeroDivisionError`. -/
def min_max_scale (X : List (List ℚ)) : Except PyErr (List (List ℚ)) :=
  match X with
  | [] => .error .indexError
  | X0 :: _ =>
    let m := X0.length
    let xmax := X.foldl foldMax (List.replicate m none)
    let xmin := X.foldl foldMin (List.replicate m none)
    scaleRows xmax xmin X

/-- The values of column `j` of `X` (specification-side helper; for the
rectangular `X` the claims quantify over, `row.getD j 0` is `row[j]`). -/
def colVals (X : List (List ℚ)) (j : Nat) : List ℚ :=
  X.map fun row => row.getD j 0

/-- Maximum of column `j` of `X` (0 for an empty `X`). -/
def colMax (X : List (List ℚ)) (j : Nat) : ℚ :=
  match colVals X j with
  | [] => 0
  | c :: cs => cs.foldl max c

/-- Minimum of column `j` of `X` (0 for an empty `X`). -/
def colMin (X : List (List ℚ)) (j : Nat) : ℚ :=
  match colVals X j with
  | [] => 0
  | c :: cs => cs.foldl min c

/-- The loop `for i in range(len(X)): ...` of `train_test_split`.  The
process-wide random source is abstracted as `draws`, the sequence of
values returned by successive `random()` calls; `y[i]` raises
`IndexError` (`none`) when `y` is shorter than `X`.  The first `Nat`
argument is the number of remaining iterations, maintained as
`len(X) - i`. -/
def ttsLoop {γ δ : Type} (X : List γ) (y : List δ) (prob : ℚ) (draws : Nat → ℚ) :
    Nat → Nat → List γ → List γ → List δ → List δ →
    Option (List γ × List γ × List δ × List δ)
  | 0, _, xtr, xte, ytr, yte => some (xtr, xte, ytr, yte)
  | rem + 1, i, xtr, xte, ytr, yte =>
    match X[i]?, y[i]? with
    | some xi, some yi =>
      if draws i < prob then
        ttsLoop X y prob draws rem (i + 1) (xtr ++ [xi]) xte (ytr ++ [yi]) yte
      else
        ttsLoop X y prob draws rem (i + 1) xtr (xte ++ [xi]) ytr (yte ++ [yi])
    | _, _ => none

/-- `train_test_split(X, y, prob, random_state)` from `imylu/utils.py`,
returning `(X_train, X_test, y_train, y_test)`.  Seeding only fixes which
sequence `draws` of `random()` outputs is observed, so the random source
is abstracted as that sequence. -/
def train_test_split {γ δ : Type} (X : List γ) (y : List δ) (prob : ℚ)
    (draws : Nat → ℚ) : Option (List γ × List γ × List δ × List δ) :=
  ttsLoop X y prob draws X.length 0 [] [] [] []

/-- Indices whose draw sends the row to the train side
(specification-side helper). -/
def trainIdx (n : Nat) (prob : ℚ) (draws : Nat → ℚ) : List Nat :=
  (List.range n).filter fun i => decide (draws i < prob)

/-- Indices whose draw sends the row to the test side. -/
def testIdx (n : Nat) (prob : ℚ) (draws : Nat → ℚ) : List Nat :=
  (List.range n).filter fun i => !decide (draws i < prob)

/-! ### Basic facts about Python indexing -/

theorem pyIdx_of_nonneg {n : Nat} {i : Int} (h0 : 0 ≤ i) (h1 : i < (n : Int)) :
    pyIdx n i = some i.toNat := by
  simp [pyIdx, h0, h1]

theorem pyGet_of_nonneg {β : Type} {nums : List β} {i : Int} (h0 : 0 ≤ i)
    (h1 : i < (nums.length : Int)) : pyGet nums i = nums[i.toNat]? := by
  simp [pyGet, pyIdx_of_nonneg h0 h1, List.get?_eq_getElem?]

theorem pyGet_some {β : Type} {nums : List β} {i : Int} (h0 : 0 ≤ i)
    (h1 : i < (nums.length : Int)) :
    ∃ x, pyGet nums i = some x ∧ nums[i.toNat]? = some x := by
  have hl : i.toNat < nums.length := by omega
  exact ⟨nums[i.toNat], by rw [pyGet_of_nonneg h0 h1]; simp [hl], by simp [hl]⟩

theorem pySet_of_nonneg {β : Type} {nums : List β} {i : Int} (v : β) (h0 : 0 ≤ i)
    (h1 : i < (nums.length : Int)) : pySet nums i v = some (nums.set i.toNat v) := by
  simp [pySet, pyIdx_of_nonneg h0 h1]

/-! ### Swapping two elements is a permutation -/

theorem set_self_eq {β : Type} : ∀ (l : List β) (i : Nat) (h : i < l.length),
    l.set i l[i] = l
  | _ :: _, 0, _ => rfl
  | x :: l, i + 1, h => by
    simpa using set_self_eq l i (by simpa using h)

theorem set_swap_perm {β : Type} [DecidableEq β] (l : List β) (i j : Nat)
    (hi : i < l.length) (hj : j < l.length) :
    ((l.set i l[j]).set j l[i]).Perm l := by
  rcases eq_or_ne i j with rfl | hij
  · rw [List.set_set, set_self_eq l i hi]
  · rw [List.perm_iff_count]
    intro x
    rw [List.count_set _ _ _ _ (by simpa), List.count_set _ _ _ _ hi]
    simp only [List.getElem_set_ne hij]
    have h1 : l[i] = x → 0 < l.count x :=
      fun h => List.count_pos_iff.2 (h ▸ List.getElem_mem hi)
    have h2 : l[j] = x → 0 < l.count x :=
      fun h => List.count_pos_iff.2 (h ▸ List.getElem_mem hj)
    by_cases hax : l[i] = x <;> by_cases hbx : l[j] = x
    · have := h1 hax
      simp only [hax, hbx, beq_self_eq_true, if_true]
      omega
    · have := h1 hax
      have hb' : (l[j] == x) = false := by simpa using hbx
      simp only [hax, hb', beq_self_eq_true, if_true, Bool.false_eq_true, if_false]
      omega
    · have := h2 hbx
      have ha' : (l[i] == x) = false := by simpa using hax
      simp only [hbx, ha', beq_self_eq_true, if_true, Bool.false_eq_true, if_false]
      omega
    · have ha' : (l[i] == x) = false := by simpa using hax
      have hb' : (l[j] == x) = false := by simpa using hbx
      simp only [ha', hb', Bool.false_eq_true, if_false]
      omega

theorem rangeLt_empty {nums : List α} {v : α} {a b : Int} (h : b ≤ a) :
    rangeLt nums v a b := fun _ h1 h2 => absurd (lt_of_le_of_lt h1 h2) (not_lt.2 h)

theorem rangeGe_empty {nums : List α} {v : α} {a b : Int} (h : b ≤ a) :
    rangeGe nums v a b := fun _ h1 h2 => absurd (lt_of_le_of_lt h1 h2) (not_lt.2 h)

theorem rangeLt_cons {nums : List α} {v x : α} {p p' : Int}
    (hx : pyGet nums p = some x) (hxv : x < v) (h : rangeLt nums v (p + 1) p') :
    rangeLt nums v p p' := by
  intro i h1 h2
  rcases eq_or_lt_of_le h1 with rfl | hlt
  · exact ⟨x, hx, hxv⟩
  · exact h i (by omega) h2

theorem rangeGe_snoc {nums : List α} {v x : α} {a q : Int}
    (hx : pyGet nums q = some x) (hxv : v ≤ x) (h : rangeGe nums v a q) :
    rangeGe nums v a (q + 1) := by
  intro i h1 h2
  rcases eq_or_lt_of_le (show i ≤ q by omega) with rfl | hlt
  · exact ⟨x, hx, hxv⟩
  · exact h i h1 hlt

theorem rangeLt_glue {nums : List α} {v : α} {a b c : Int}
    (h1 : rangeLt nums v a b) (h2 : rangeLt nums v b c) : rangeLt nums v a c := by
  intro i hi1 hi2
  by_cases hib : i < b
  · exact h1 i hi1 hib
  · exact h2 i (by omega) hi2

theorem rangeGe_glue {nums : List α} {v : α} {a b c : Int}
    (h1 : rangeGe nums v a b) (h2 : rangeGe nums v b c) : rangeGe nums v a c := by
  intro i hi1 hi2
  by_cases hib : i < b
  · exact h1 i hi1 hib
  · exact h2 i (by omega) hi2

/-- A successful in-range swap: the result, its length, that it is a
permutation, the two new values, and that all other positions keep their
values. -/
theorem pySwap_spec {nums : List α} {p q : Int} {a b : α}
    (h0p : 0 ≤ p) (hpN : p < (nums.length : Int)) (h0q : 0 ≤ q)
    (hqN : q < (nums.length : Int))
    (ha : pyGet nums p = some a) (hb : pyGet nums q = some b) :
    ∃ nums2, pySwap nums p q = some nums2 ∧
      nums2.length = nums.length ∧ nums2.Perm nums ∧
      pyGet nums2 p = some b ∧ pyGet nums2 q = some a ∧
      (∀ k : Nat, k ≠ p.toNat → k ≠ q.toNat → nums2[k]? = nums[k]?) := by
  have hpn : p.toNat < nums.length := by omega
  have hqn : q.toNat < nums.length := by omega
  have ha' : a = nums[p.toNat] := by
    rw [pyGet_of_nonneg h0p hpN] at ha
    simpa [List.getElem?_eq_getElem hpn] using ha.symm
  have hb' : b = nums[q.toNat] := by
    rw [pyGet_of_nonneg h0q hqN] at hb
    simpa [List.getElem?_eq_getElem hqn] using hb.symm
  refine ⟨(nums.set p.toNat b).set q.toNat a, ?_, by simp, ?_, ?_, ?_, ?_⟩
  · simp only [pySwap, hb, ha, Option.bind_eq_bind, Option.some_bind]
    rw [pySet_of_nonneg b h0p hpN]
    simp only [Option.some_bind]
    rw [pySet_of_nonneg a h0q (by simpa using hqN)]
  · rw [ha', hb']
    exact set_swap_perm nums p.toNat q.toNat hpn hqn
  · rw [pyGet_of_nonneg h0p (by simpa using hpN)]
    rcases eq_or_ne p.toNat q.toNat with hpq | hpq
    · have hab : a = b := by rw [ha', hb']; simp only [hpq]
      rw [hpq, List.getElem?_set_self (by simpa using hqn), hab]
    · rw [List.getElem?_set_ne (Ne.symm hpq), List.getElem?_set_self (by simpa using hpn)]
  · rw [pyGet_of_nonneg h0q (by simpa using hqN)]
    rw [List.getElem?_set_self (by simpa using hqn)]
  · intro k hkp hkq
    rw [List.getElem?_set_ne (Ne.symm hkq), List.getElem?_set_ne (Ne.symm hkp)]

/-! ### The two inner loops -/

theorem loopA_spec {nums : List α} {v : α} {q : Int} (fuel : Nat) :
    ∀ p : Int, 0 ≤ p → p ≤ q → q < (nums.length : Int) →
    (q + 1 - p).toNat < fuel →
    ∃ p' tag, loopA nums v q fuel p = some (p', tag) ∧ p ≤ p' ∧ p' ≤ q + 1 ∧
      rangeLt nums v p p' ∧
      ((tag = true ∧ p' = q + 1) ∨
        (tag = false ∧ p' ≤ q ∧ ∃ x, pyGet nums p' = some x ∧ v ≤ x)) := by
  induction fuel with
  | zero => intro p _ _ _ hf; omega
  | succ f ih =>
    intro p h0 hpq hqN hf
    obtain ⟨x, hx, -⟩ := pyGet_some h0 (lt_of_le_of_lt hpq hqN)
    simp only [loopA, hx]
    by_cases hxv : x < v
    · simp only [if_pos hxv]
      by_cases hbreak : p + 1 > q
      · simp only [if_pos hbreak]
        have hpq' : p = q := by omega
        refine ⟨p + 1, true, rfl, by omega, by omega, ?_, Or.inl ⟨rfl, by omega⟩⟩
        exact rangeLt_cons hx hxv (rangeLt_empty (by omega))
      · simp only [if_neg hbreak]
        obtain ⟨p', tag, heq, h1, h2, h3, h4⟩ :=
          ih (p + 1) (by omega) (by omega) hqN (by omega)
        exact ⟨p', tag, heq, by omega, h2, rangeLt_cons hx hxv h3, h4⟩
    · simp only [if_neg hxv]
      exact ⟨p, false, rfl, le_refl p, by omega, rangeLt_empty (le_refl p),
        Or.inr ⟨rfl, hpq, x, hx, not_lt.1 hxv⟩⟩

theorem loopB_spec {nums : List α} {v : α} {p : Int} (fuel : Nat) :
    ∀ q : Int, 0 ≤ p → p ≤ q → q < (nums.length : Int) →
    (∃ y, pyGet nums p = some y ∧ v ≤ y) →
    (q + 1 - p).toNat < fuel →
    ∃ q' tag, loopB nums v p fuel q = some (q', tag) ∧ p - 1 ≤ q' ∧ q' ≤ q ∧
      rangeGe nums v (q' + 1) (q + 1) ∧
      ((tag = true ∧ q' = p - 1) ∨
        (tag = false ∧ p ≤ q' ∧ ∃ x, pyGet nums q' = some x ∧ x < v)) := by
  induction fuel with
  | zero => intro q _ _ _ _ hf; omega
  | succ f ih =>
    intro q h0p hpq hqN hp hf
    obtain ⟨x, hx, -⟩ := pyGet_some (by omega) hqN
    simp only [loopB, hx]
    by_cases hxv : v ≤ x
    · simp only [if_pos hxv]
      by_cases hbreak : p > q - 1
      · simp only [if_pos hbreak]
        have hpq' : p = q := by omega
        refine ⟨q - 1, true, rfl, by omega, by omega, ?_, Or.inl ⟨rfl, by omega⟩⟩
        have : q - 1 + 1 = q := by omega
        rw [this]
        exact rangeGe_snoc hx hxv (rangeGe_empty (le_refl q))
      · simp only [if_neg hbreak]
        obtain ⟨q', tag, heq, h1, h2, h3, h4⟩ :=
          ih (q - 1) h0p (by omega) (by omega) hp (by omega)
        have : q - 1 + 1 = q := by omega
        rw [this] at h3
        exact ⟨q', tag, heq, h1, by omega, rangeGe_snoc hx hxv h3, h4⟩
    · simp only [if_neg hxv]
      exact ⟨q, false, rfl, by omega, le_refl q, rangeGe_empty (by omega),
        Or.inr ⟨rfl, hpq, x, hx, not_le.1 hxv⟩⟩

/-- When the first inner loop has set `break_tag` (so the low cursor has
just crossed: `p = q + 1` with `nums[q] < split`), the second inner loop
stops immediately without moving `q`. -/
theorem loopB_immediate {nums : List α} {v x : α} {p q : Int} (fuel : Nat)
    (hx : pyGet nums q = some x) (hxv : x < v) :
    loopB nums v p (fuel + 1) q = some (q, false) := by
  simp only [loopB, hx, if_neg (not_le.2 hxv)]

/-! ### The outer loop -/

theorem pyGet_congr {β : Type} {nums2 nums : List β} (hlen : nums2.length = nums.length)
    {i : Int} (h0 : 0 ≤ i) (hN : i < (nums.length : Int))
    (h : nums2[i.toNat]? = nums[i.toNat]?) : pyGet nums2 i = pyGet nums i := by
  rw [pyGet_of_nonneg h0 (by rw [hlen]; exact hN), pyGet_of_nonneg h0 hN, h]

/-- The invariant-carrying run of the outer loop.  The fuel side
condition has two modes: two spare units in general, or one spare unit
when the state is the result of a swap (so the two cursors are
guaranteed to strictly advance in the next iteration). -/
theorem splitLoop_spec (v : α) (l r : Int) (orig : List α) (fuel : Nat) :
    ∀ (nums : List α) (p q : Int),
    nums.length = orig.length →
    0 ≤ l → r ≤ (orig.length : Int) →
    l ≤ p → p ≤ q → q ≤ r - 1 →
    rangeLt nums v l p → rangeGe nums v (q + 1) r →
    nums.Perm orig →
    (∀ k : Nat, k < l.toNat ∨ r.toNat ≤ k → nums[k]? = orig[k]?) →
    ((q - p).toNat + 2 ≤ fuel ∨
      ((q - p).toNat + 1 ≤ fuel ∧
        (∃ x, pyGet nums p = some x ∧ x < v) ∧
        (∃ y, pyGet nums q = some y ∧ v ≤ y))) →
    ∃ nums' p', splitLoop v fuel nums p q = .ok nums' p' ∧
      l ≤ p' ∧ p' ≤ r ∧ nums'.length = orig.length ∧
      rangeLt nums' v l p' ∧ rangeGe nums' v p' r ∧
      nums'.Perm orig ∧
      (∀ k : Nat, k < l.toNat ∨ r.toNat ≤ k → nums'[k]? = orig[k]?) := by
  induction fuel with
  | zero => intro nums p q _ _ _ _ _ _ _ _ _ _ hfuel; omega
  | succ f ih =>
    intro nums p q hlen h0l hrN hlp hpq hqr hLt hGe hperm hout hfuel
    have hN : (nums.length : Int) = (orig.length : Int) := by exact_mod_cast hlen
    have h0p : 0 ≤ p := le_trans h0l hlp
    have hqN : q < (nums.length : Int) := by omega
    obtain ⟨p', tagA, hA, hpp', hp'q1, hAlt, hAcase⟩ :=
      loopA_spec (iFuel nums p q + 1) p h0p hpq hqN (by simp [iFuel]; omega)
    rcases hAcase with ⟨rfl, rfl⟩ | ⟨rfl, hp'q, x, hx, hvx⟩
    · -- break_tag was set in the first inner loop: p has crossed to q + 1,
      -- the second inner loop sees nums[q] < split and stops at once
      obtain ⟨x, hx, hxv⟩ := hAlt q hpq (by omega)
      refine ⟨nums, q + 1, ?_, by omega, by omega, hlen, rangeLt_glue hLt hAlt, ?_, hperm, hout⟩
      · simp only [splitLoop, hA, loopB_immediate _ hx hxv, Bool.true_or, if_true]
      · intro i h1 h2
        exact hGe i h1 h2
    · -- the first inner loop stopped at p' with nums[p'] ≥ split
      obtain ⟨q', tagB, hB, hq'1, hq'q, hBge, hBcase⟩ :=
        loopB_spec (iFuel nums q p' + 1) q (by omega) hp'q hqN ⟨x, hx, hvx⟩
          (by simp [iFuel]; omega)
      rcases hBcase with ⟨rfl, rfl⟩ | ⟨rfl, hpq', y, hy, hyv⟩
      · -- break_tag set in the second inner loop: q has crossed to p' - 1
        refine ⟨nums, p', ?_, le_trans hlp hpp', by omega, hlen,
          rangeLt_glue hLt hAlt, ?_, hperm, hout⟩
        · simp only [splitLoop, hA, hB, Bool.or_true, if_true]
        · refine rangeGe_glue (a := p') (b := q + 1) ?_ hGe
          intro i h1 h2
          exact hBge i (by omega) h2
      · -- no break: swap nums[p'] and nums[q'] and iterate
        have hp'q' : p' < q' := by
          rcases lt_or_eq_of_le hpq' with h | h
          · exact h
          · rw [← h] at hy
            rw [hy] at hx
            cases hx
            exact absurd hyv (not_lt.2 hvx)
        have h0p' : 0 ≤ p' := by omega
        have hp'N : p' < (nums.length : Int) := by omega
        have h0q' : 0 ≤ q' := by omega
        have hq'N : q' < (nums.length : Int) := by omega
        obtain ⟨nums2, hsw, hlen2, hperm2, hg2p, hg2q, hother⟩ :=
          pySwap_spec h0p' hp'N h0q' hq'N hx hy
        have hlen2' : nums2.length = orig.length := hlen2.trans hlen
        have hLt2 : rangeLt nums2 v l p' := by
          intro i h1 h2
          have hi0 : 0 ≤ i := by omega
          have hiN : i < (nums.length : Int) := by omega
          rw [pyGet_congr hlen2 hi0 hiN (hother i.toNat (by omega) (by omega))]
          exact rangeLt_glue hLt hAlt i h1 h2
        have hGe2 : rangeGe nums2 v (q' + 1) r := by
          intro i h1 h2
          have hi0 : 0 ≤ i := by omega
          have hiN : i < (nums.length : Int) := by omega
          rw [pyGet_congr hlen2 hi0 hiN (hother i.toNat (by omega) (by omega))]
          refine rangeGe_glue (b := q + 1) ?_ hGe i h1 h2
          intro j hj1 hj2
          exact hBge j hj1 hj2
        have hout2 : ∀ k : Nat, k < l.toNat ∨ r.toNat ≤ k → nums2[k]? = orig[k]? := by
          intro k hk
          rw [hother k (by omega) (by omega)]
          exact hout k hk
        have hfuel2 : (q' - p').toNat + 2 ≤ f ∨
            ((q' - p').toNat + 1 ≤ f ∧
              (∃ x, pyGet nums2 p' = some x ∧ x < v) ∧
              (∃ y, pyGet nums2 q' = some y ∧ v ≤ y)) := by
          right
          refine ⟨?_, ⟨y, hg2p, hyv⟩, ⟨x, hg2q, hvx⟩⟩
          rcases hfuel with h | ⟨h, ⟨x0, hx0, hx0v⟩, ⟨y0, hy0, hy0v⟩⟩
          · omega
          · -- post-swap entry state: both cursors strictly advanced
            have hpp'' : p < p' := by
              rcases lt_or_eq_of_le hpp' with hlt | heq
              · exact hlt
              · rw [← heq] at hx
                rw [hx] at hx0
                cases hx0
                exact absurd hx0v (not_lt.2 hvx)
            have hqq' : q' < q := by
              rcases lt_or_eq_of_le hq'q with hlt | heq
              · exact hlt
              · rw [heq] at hy
                rw [hy] at hy0
                cases hy0
                exact absurd hyv (not_lt.2 hy0v)
            omega
        obtain ⟨nums', pf, hrun, hc1, hc2, hc3, hc4, hc5, hc6, hc7⟩ :=
          ih nums2 p' q' hlen2' h0l hrN (le_trans hlp hpp') (le_of_lt hp'q')
            (by omega) hLt2 hGe2 (hperm2.trans hperm) hout2 hfuel2
        refine ⟨nums', pf, ?_, hc1, hc2, hc3, hc4, hc5, hc6, hc7⟩
        simp only [splitLoop, hA, hB, Bool.or_self, if_false, hsw, hrun,
          Bool.false_eq_true]


/-! ### Top-level runs of `split_list` on well-formed ranges -/

theorem split_list_run {nums : List α} (v : α) {l r : Int}
    (h0 : 0 ≤ l) (hlr : l < r) (hrN : r ≤ (nums.length : Int)) :
    ∃ nums' p, split_list nums v l r = .ok nums' p ∧
      l ≤ p ∧ p ≤ r ∧ nums'.length = nums.length ∧
      rangeLt nums' v l p ∧ rangeGe nums' v p r ∧
      nums'.Perm nums ∧
      (∀ k : Nat, k < l.toNat ∨ r.toNat ≤ k → nums'[k]? = nums[k]?) := by
  have hGe0 : rangeGe nums v (r - 1 + 1) r := by
    have h : r - 1 + 1 = r := by omega
    rw [h]
    exact rangeGe_empty (le_refl r)
  obtain ⟨nums', p, h⟩ := splitLoop_spec v l r nums ((r - l).toNat + 2) nums l (r - 1)
    rfl h0 hrN (le_refl l) (by omega) (by omega) (rangeLt_empty (le_refl l)) hGe0
    (List.Perm.refl nums) (fun k _ => rfl) (Or.inl (by omega))
  exact ⟨nums', p, h⟩

/-! ### Bridging `rangeLt`/`rangeGe` to Python slices -/

theorem mem_sliceI {β : Type} {nums : List β} {a b : Int} (h0 : 0 ≤ a) {x : β} :
    x ∈ sliceI nums a b ↔
      ∃ i : Int, a ≤ i ∧ i < b ∧ i < (nums.length : Int) ∧ pyGet nums i = some x := by
  constructor
  · intro hx
    obtain ⟨k, hk⟩ := List.mem_iff_getElem?.1 hx
    rw [sliceI, List.getElem?_drop, List.getElem?_take] at hk
    by_cases hlt : a.toNat + k < b.toNat
    · rw [if_pos hlt] at hk
      obtain ⟨hbound, -⟩ := List.getElem?_eq_some_iff.1 hk
      refine ⟨a + k, by omega, by omega, by omega, ?_⟩
      rw [pyGet_of_nonneg (by omega) (by omega)]
      have : (a + k).toNat = a.toNat + k := by omega
      rw [this, hk]
    · rw [if_neg hlt] at hk
      cases hk
  · rintro ⟨i, h1, h2, h3, hg⟩
    rw [pyGet_of_nonneg (by omega) h3] at hg
    apply List.mem_iff_getElem?.2
    refine ⟨i.toNat - a.toNat, ?_⟩
    rw [sliceI, List.getElem?_drop, List.getElem?_take]
    have he : a.toNat + (i.toNat - a.toNat) = i.toNat := by omega
    rw [if_pos (by omega), he, hg]

theorem sliceI_all_lt {nums : List α} {v : α} {a b : Int} (h0 : 0 ≤ a)
    (h : rangeLt nums v a b) : ∀ x ∈ sliceI nums a b, x < v := by
  intro x hx
  obtain ⟨i, h1, h2, h3, hg⟩ := (mem_sliceI h0).1 hx
  obtain ⟨x', hg', hx'⟩ := h i h1 h2
  rw [hg] at hg'
  cases hg'
  exact hx'

theorem sliceI_all_ge {nums : List α} {v : α} {a b : Int} (h0 : 0 ≤ a)
    (h : rangeGe nums v a b) : ∀ x ∈ sliceI nums a b, v ≤ x := by
  intro x hx
  obtain ⟨i, h1, h2, h3, hg⟩ := (mem_sliceI h0).1 hx
  obtain ⟨x', hg', hx'⟩ := h i h1 h2
  rw [hg] at hg'
  cases hg'
  exact hx'

theorem sliceI_decomp {β : Type} (nums : List β) {a b : Int} (h0 : 0 ≤ a) (hab : a ≤ b) :
    nums = nums.take a.toNat ++ sliceI nums a b ++ nums.drop b.toNat := by
  have h1 : (nums.take b.toNat).take a.toNat = nums.take a.toNat := by
    rw [List.take_take]
    congr 1
    omega
  calc nums = nums.take b.toNat ++ nums.drop b.toNat := (List.take_append_drop _ _).symm
    _ = ((nums.take b.toNat).take a.toNat ++ (nums.take b.toNat).drop a.toNat) ++
          nums.drop b.toNat := by rw [List.take_append_drop a.toNat (nums.take b.toNat)]
    _ = nums.take a.toNat ++ sliceI nums a b ++ nums.drop b.toNat := by rw [h1]; rfl

/-- Two lists that are permutations of one another and agree outside
`[a, b)` have permuted `[a:b]` slices. -/
theorem sliceI_perm_of_outside_eq {β : Type} {nums' nums : List β} {a b : Int}
    (hperm : nums'.Perm nums)
    (hout : ∀ k : Nat, k < a.toNat ∨ b.toNat ≤ k → nums'[k]? = nums[k]?)
    (h0 : 0 ≤ a) (hab : a ≤ b) :
    (sliceI nums' a b).Perm (sliceI nums a b) := by
  have htake : nums'.take a.toNat = nums.take a.toNat := by
    apply List.ext_getElem?
    intro k
    rw [List.getElem?_take, List.getElem?_take]
    by_cases hk : k < a.toNat
    · rw [if_pos hk, if_pos hk]
      exact hout k (Or.inl hk)
    · rw [if_neg hk, if_neg hk]
  have hdrop : nums'.drop b.toNat = nums.drop b.toNat := by
    apply List.ext_getElem?
    intro k
    rw [List.getElem?_drop, List.getElem?_drop]
    exact hout (b.toNat + k) (Or.inr (by omega))
  have hL : nums.take a.toNat ++ sliceI nums' a b ++ nums.drop b.toNat = nums' := by
    rw [← htake, ← hdrop]
    exact (sliceI_decomp nums' h0 hab).symm
  have hp : (nums.take a.toNat ++ (sliceI nums' a b ++ nums.drop b.toNat)).Perm
      (nums.take a.toNat ++ (sliceI nums a b ++ nums.drop b.toNat)) := by
    rw [← List.append_assoc, ← List.append_assoc, hL, ← sliceI_decomp nums h0 hab]
    exact hperm
  exact (List.perm_append_right_iff _).1 ((List.perm_append_left_iff _).1 hp)

/-- C1: for every mutable numeric sequence `S`, pivot `v`, and well-formed
non-degenerate range `[l, r)` (`0 ≤ l < r ≤ len(S)`), `split_list`
returns an index `p` with `l ≤ p ≤ r`, every element of `S[l:p]` ends up
`< v`, every element of `S[p:r]` ends up `≥ v`, `S[l:r]` is permuted in
place, and every element outside `[l, r)` is unchanged. -/
theorem C1_partition_correct {α : Type} [LinearOrder α] (S : List α) (v : α) (l r : Int)
    (h0 : 0 ≤ l) (hlr : l < r) (hrN : r ≤ (S.length : Int)) :
    ∃ S' p, split_list S v l r = .ok S' p ∧ l ≤ p ∧ p ≤ r ∧
      (∀ x ∈ sliceI S' l p, x < v) ∧
      (∀ x ∈ sliceI S' p r, v ≤ x) ∧
      (sliceI S' l r).Perm (sliceI S l r) ∧
      (∀ k : Nat, k < l.toNat ∨ r.toNat ≤ k → S'[k]? = S[k]?) := by
  obtain ⟨S', p, hrun, hlp, hpr, hlen, hLt, hGe, hperm, hout⟩ := split_list_run v h0 hlr hrN
  exact ⟨S', p, hrun, hlp, hpr, sliceI_all_lt h0 hLt,
    sliceI_all_ge (le_trans h0 hlp) hGe,
    sliceI_perm_of_outside_eq hperm hout h0 (le_of_lt hlr), hout⟩

/-- Witness for C1: the spec's concrete scenario `[5, 1, 8, 3, 9, 2]`,
pivot `5`, range `[0, 6)`. -/
theorem C1_partition_correct_witness :
    (0 : Int) ≤ 0 ∧ (0 : Int) < 6 ∧ (6 : Int) ≤ (([5, 1, 8, 3, 9, 2] : List Int).length : Int) ∧
    ∃ S' p, split_list ([5, 1, 8, 3, 9, 2] : List Int) 5 0 6 = .ok S' p ∧
      (0 : Int) ≤ p ∧ p ≤ 6 ∧
      (∀ x ∈ sliceI S' 0 p, x < 5) ∧
      (∀ x ∈ sliceI S' p 6, 5 ≤ x) ∧
      (sliceI S' 0 6).Perm (sliceI ([5, 1, 8, 3, 9, 2] : List Int) 0 6) ∧
      (∀ k : Nat, k < (0 : Int).toNat ∨ (6 : Int).toNat ≤ k →
        S'[k]? = ([5, 1, 8, 3, 9, 2] : List Int)[k]?) :=
  ⟨by decide, by decide, by decide,
    C1_partition_correct [5, 1, 8, 3, 9, 2] 5 0 6 (by decide) (by decide) (by decide)⟩

/-! ### Single-step unfolding lemmas (for symbolic evaluation) -/

theorem loopA_step (nums : List α) (v : α) (q : Int) (f : Nat) (p : Int) :
    loopA nums v q (f + 1) p =
      match pyGet nums p with
      | none => none
      | some x =>
        if x < v then
          (if p + 1 > q then some (p + 1, true) else loopA nums v q f (p + 1))
        else some (p, false) := rfl

theorem loopB_step (nums : List α) (v : α) (p : Int) (f : Nat) (q : Int) :
    loopB nums v p (f + 1) q =
      match pyGet nums q with
      | none => none
      | some x =>
        if v ≤ x then
          (if p > q - 1 then some (q - 1, true) else loopB nums v p f (q - 1))
        else some (q, false) := rfl

theorem splitLoop_step (v : α) (f : Nat) (nums : List α) (p q : Int) :
    splitLoop v (f + 1) nums p q =
      match loopA nums v q (iFuel nums p q + 1) p with
      | none => .err
      | some (p', tagA) =>
        match loopB nums v p' (iFuel nums q p' + 1) q with
        | none => .err
        | some (q', tagB) =>
          if tagA || tagB then .ok nums p'
          else
            match pySwap nums p' q' with
            | none => .err
            | some nums2 => splitLoop v f nums2 p' q' := rfl

/-- C4: for every well-formed non-degenerate sub-range, `split_list`
terminates, returning a result within the fuel bound and raising no
`IndexError` (in particular on ranges of length 1). -/
theorem C4_split_list_terminates {α : Type} [LinearOrder α] (S : List α) (v : α)
    (l r : Int) (h0 : 0 ≤ l) (hlr : l < r) (hrN : r ≤ (S.length : Int)) :
    ∃ S' p, split_list S v l r = .ok S' p := by
  obtain ⟨S', p, hrun, -⟩ := split_list_run v h0 hlr hrN
  exact ⟨S', p, hrun⟩

/-- Witness for C4: the spec's concrete scenario 3, a range of length 1
(`[7]`, pivot `10`, range `[0, 1)`). -/
theorem C4_split_list_terminates_witness :
    (0 : Int) ≤ 0 ∧ (0 : Int) < 1 ∧ (1 : Int) ≤ (([7] : List Int).length : Int) ∧
    ∃ S' p, split_list ([7] : List Int) 10 0 1 = .ok S' p :=
  ⟨by decide, by decide, by decide,
    C4_split_list_terminates [7] 10 0 1 (by decide) (by decide) (by decide)⟩

/-- C3 counterexample: the malformed range `left = 1 > 0 = right` on
`[1, 2]` with pivot `3` does not raise: `split_list` returns normally
(with index 2), contradicting "for every malformed range it fails fast
with an out-of-range error rather than returning normally". -/
theorem C3_counterexample :
    (1 : Int) > (0 : Int) ∧
    split_list ([1, 2] : List Int) 3 1 0 = .ok [1, 2] 2 := by
  exact ⟨by decide, by decide⟩

/-- C3 (amended): on every well-formed non-degenerate range `split_list`
never raises; malformed ranges, however, do not always raise (see the
counterexample). -/
theorem C3_amended_no_error_when_wellformed {α : Type} [LinearOrder α] (S : List α)
    (v : α) (l r : Int) (h0 : 0 ≤ l) (hlr : l < r) (hrN : r ≤ (S.length : Int)) :
    split_list S v l r ≠ PyRes.err := by
  obtain ⟨S', p, hrun, -⟩ := split_list_run v h0 hlr hrN
  rw [hrun]
  intro h
  cases h

/-- Witness for the amended C3. -/
theorem C3_amended_no_error_when_wellformed_witness :
    (0 : Int) ≤ 0 ∧ (0 : Int) < 3 ∧ (3 : Int) ≤ (([2, 2, 2] : List Int).length : Int) ∧
    split_list ([2, 2, 2] : List Int) 2 0 3 ≠ PyRes.err :=
  ⟨by decide, by decide, by decide,
    C3_amended_no_error_when_wellformed [2, 2, 2] 2 0 3 (by decide) (by decide) (by decide)⟩

/-- C2 counterexample: the empty range `[0, 0)` on `[1]` with pivot `2`
returns `1`, not `left = 0`: the code first tests `nums[left] < split`
and advances `p` before any crossing check, so an empty range is not a
no-op returning `left`. -/
theorem C2_counterexample :
    split_list ([1] : List Int) 2 0 0 = .ok [1] 1 ∧ (1 : Int) ≠ 0 := by
  exact ⟨by decide, by decide⟩

/-- C2 (amended): an empty range `[l, l)` is not in general a no-op.
When `0 ≤ l < len(S)` and both `S[l] ≥ v` and `S[l-1] ≥ v` (Python
index `l-1`, which wraps to the last element when `l = 0`), the call
returns `l` and leaves `S` unchanged; otherwise it can return `l + 1`,
swap two elements, or (when `l = len(S)`) raise `IndexError`. -/
theorem C2_amended_empty_range {α : Type} [LinearOrder α] (S : List α) (v : α)
    (l : Int) (x y : α) (h0 : 0 ≤ l) (hlN : l < (S.length : Int))
    (hx : pyGet S l = some x) (hxv : v ≤ x)
    (hy : pyGet S (l - 1) = some y) (hyv : v ≤ y) :
    split_list S v l l = .ok S l := by
  have hfuel : (l - l).toNat + 2 = 1 + 1 := by omega
  rw [split_list, hfuel, splitLoop_step]
  have hnx : ¬ x < v := not_lt.2 hxv
  have hA : loopA S v (l - 1) (iFuel S l (l - 1) + 1) l = some (l, false) := by
    rw [loopA_step, hx]
    simp only [if_neg hnx]
  have hB : loopB S v l (iFuel S (l - 1) l + 1) (l - 1) = some (l - 1 - 1, true) := by
    rw [loopB_step, hy]
    simp only [if_pos hyv, if_pos (show l > l - 1 - 1 by omega)]
  simp only [hA, hB, Bool.false_or, if_true]

/-- Witness for the amended C2: `S = [7, 9]`, `v = 5`, `l = 1`. -/
theorem C2_amended_empty_range_witness :
    (0 : Int) ≤ 1 ∧ (1 : Int) < (([7, 9] : List Int).length : Int) ∧
    pyGet ([7, 9] : List Int) 1 = some 9 ∧ (5 : Int) ≤ 9 ∧
    pyGet ([7, 9] : List Int) (1 - 1) = some 7 ∧ (5 : Int) ≤ 7 ∧
    split_list ([7, 9] : List Int) 5 1 1 = .ok [7, 9] 1 :=
  ⟨by decide, by decide, by decide, by decide, by decide, by decide,
    C2_amended_empty_range [7, 9] 5 1 9 7 (by decide) (by decide) (by decide)
      (by decide) (by decide) (by decide)⟩

/-! ### A run over an already-partitioned (all `< v`) range -/

theorem loopA_all_lt {nums : List α} {v : α} {m : Int} (fuel : Nat) :
    ∀ p : Int, 0 ≤ p → p ≤ m - 1 → m ≤ (nums.length : Int) →
    rangeLt nums v p m → (m - p).toNat < fuel →
    loopA nums v (m - 1) fuel p = some (m, true) := by
  induction fuel with
  | zero => intro p _ h1 _ _ hf; omega
  | succ f ih =>
    intro p h0 hpm hmN hall hf
    obtain ⟨x, hx, hxv⟩ := hall p (le_refl p) (by omega)
    rw [loopA_step, hx]
    simp only [if_pos hxv]
    by_cases hend : p + 1 > m - 1
    · rw [if_pos hend, show p + 1 = m by omega]
    · rw [if_neg hend]
      exact ih (p + 1) (by omega) (by omega) hmN (fun i h1 h2 => hall i (by omega) h2)
        (by omega)

/-- If every element of `nums[l:m]` is already `< v`, then
`split_list nums v l m` returns `m` and changes nothing: the low cursor
scans across the whole range, sets `break_tag`, and the high cursor
does not move. -/
theorem split_list_all_lt {nums : List α} {v : α} {l m : Int}
    (h0 : 0 ≤ l) (hlm : l < m) (hmN : m ≤ (nums.length : Int))
    (hall : rangeLt nums v l m) :
    split_list nums v l m = .ok nums m := by
  have hfuel : (m - l).toNat + 2 = ((m - l).toNat + 1) + 1 := rfl
  rw [split_list, hfuel, splitLoop_step]
  have hA : loopA nums v (m - 1) (iFuel nums l (m - 1) + 1) l = some (m, true) := by
    apply loopA_all_lt _ l h0 (by omega) hmN hall
    simp only [iFuel]
    omega
  obtain ⟨y, hy, hyv⟩ := hall (m - 1) (by omega) (by omega)
  have hB : loopB nums v m (iFuel nums (m - 1) m + 1) (m - 1) = some (m - 1, false) :=
    loopB_immediate _ hy hyv
  simp only [hA, hB, Bool.true_or, if_true]

/-- C7 counterexample: `S = [1, 5]`, `v = 3`, well-formed range `[1, 2)`.
The first call returns `p = 1` and leaves `S` unchanged, but re-invoking
on the left segment `[1, 1)` mutates the sequence to `[5, 1]` and
returns `2`, not `p`: when `p = l`, the second call touches `S[l]` and
`S[l-1]` (which lies outside the range) and can swap them. -/
theorem C7_counterexample :
    split_list ([1, 5] : List Int) 3 1 2 = .ok [1, 5] 1 ∧
    split_list ([1, 5] : List Int) 3 1 1 ≠ .ok [1, 5] 1 ∧
    split_list ([1, 5] : List Int) 3 1 1 = .ok [5, 1] 2 := by
  exact ⟨by decide, by decide, by decide⟩

/-- C7 (amended): re-partitioning the left segment is idempotent
provided that segment is non-empty (`l < p`): if
`split_list S v l r = (S', p)` with `0 ≤ l < r ≤ len(S)` and `l < p`,
then `split_list S' v l p` returns `p` and leaves `S'` unchanged.
(The counterexample shows the `p = l` case fails.) -/
theorem C7_amended_repartition_idempotent {α : Type} [LinearOrder α]
    (S S' : List α) (v : α) (l r p : Int)
    (h0 : 0 ≤ l) (hlr : l < r) (hrN : r ≤ (S.length : Int))
    (hrun : split_list S v l r = .ok S' p) (hlp : l < p) :
    split_list S' v l p = .ok S' p := by
  obtain ⟨S'', p'', hrun', hlp'', hpr'', hlen'', hLt'', hGe'', hperm'', hout''⟩ :=
    split_list_run v h0 hlr hrN
  rw [hrun] at hrun'
  cases hrun'
  exact split_list_all_lt h0 hlp (by omega) hLt''

/-- Witness for the amended C7: `[5, 1, 8, 3, 9, 2]`, pivot `5`, range
`[0, 6)`; the first call returns `([2, 1, 3, 8, 9, 5], 3)` and the
second call on `[0, 3)` is the identity. -/
theorem C7_amended_repartition_idempotent_witness :
    (0 : Int) ≤ 0 ∧ (0 : Int) < 6 ∧ (6 : Int) ≤ (([5, 1, 8, 3, 9, 2] : List Int).length : Int) ∧
    split_list ([5, 1, 8, 3, 9, 2] : List Int) 5 0 6 = .ok [2, 1, 3, 8, 9, 5] 3 ∧
    (0 : Int) < 3 ∧
    split_list ([2, 1, 3, 8, 9, 5] : List Int) 5 0 3 = .ok [2, 1, 3, 8, 9, 5] 3 :=
  ⟨by decide, by decide, by decide, by decide, by decide,
    C7_amended_repartition_idempotent [5, 1, 8, 3, 9, 2] [2, 1, 3, 8, 9, 5] 5 0 6 3
      (by decide) (by decide) (by decide) (by decide) (by decide)⟩

/-! ### The reference partitioner `_split_list` -/

theorem splitRefLoop_spec (v : α) :
    ∀ (nums : List α) (acc : List α × List α),
    splitRefLoop v nums acc =
      (acc.1 ++ nums.filter (fun x => decide (x < v)),
       acc.2 ++ nums.filter (fun x => !decide (x < v))) := by
  intro nums
  induction nums with
  | nil => intro acc; simp [splitRefLoop]
  | cons x rest ih =>
    intro acc
    by_cases hx : x < v
    · simp [splitRefLoop, if_pos hx, ih, hx, List.filter_cons]
    · simp [splitRefLoop, if_neg hx, ih, hx, List.filter_cons]

/-- C5: for every input sequence and pivot, `_split_list` consumes the
input front to back and returns as first bucket exactly the elements
`< v` in their original relative order, as second bucket exactly the
elements `≥ v` in their original relative order, and the two buckets
together are a permutation of the input. -/
theorem C5_reference_partitioner {α : Type} [LinearOrder α] (nums : List α) (v : α) :
    (refSplitList nums v).1 = nums.filter (fun x => decide (x < v)) ∧
    (refSplitList nums v).2 = nums.filter (fun x => !decide (x < v)) ∧
    ((refSplitList nums v).1 ++ (refSplitList nums v).2).Perm nums := by
  have h := splitRefLoop_spec v nums ([], [])
  refine ⟨by rw [refSplitList, h]; rfl, by rw [refSplitList, h]; rfl, ?_⟩
  rw [refSplitList, h]
  simpa using List.filter_append_perm (fun x => decide (x < v)) nums

/-! ### Cross-oracle equivalence -/

/-- C6 counterexample: on the empty sequence the Partitioner raises
`IndexError` (the first thing `split_list` does is read `nums[left]`),
while the Reference Partitioner returns two empty buckets, so "for every
sequence S ... yields equivalent splits" fails at `S = []`. -/
theorem C6_counterexample :
    split_list ([] : List Int) 0 0 (([] : List Int).length : Int) = PyRes.err ∧
    refSplitList ([] : List Int) 0 = ([], []) := by
  exact ⟨by decide, by decide⟩

/-- After a full-range run, the left segment is exactly the `< v`
elements of the result (as a filter), and the right segment the rest. -/
theorem segments_are_filters {S' : List α} {v : α} {p : Int} (hp0 : 0 ≤ p)
    (hpN : p ≤ (S'.length : Int))
    (hLt : rangeLt S' v 0 p) (hGe : rangeGe S' v p S'.length) :
    S'.filter (fun x => decide (x < v)) = S'.take p.toNat ∧
    S'.filter (fun x => !decide (x < v)) = S'.drop p.toNat := by
  have htk : S'.take p.toNat = sliceI S' 0 p := by
    simp [sliceI]
  have hdr : S'.drop p.toNat = sliceI S' p S'.length := by
    simp [sliceI, List.take_length]
  have hlt : ∀ x ∈ S'.take p.toNat, x < v := by
    rw [htk]
    exact sliceI_all_lt (le_refl 0) hLt
  have hge : ∀ x ∈ S'.drop p.toNat, v ≤ x := by
    rw [hdr]
    exact sliceI_all_ge hp0 hGe
  constructor
  · conv_lhs => rw [← List.take_append_drop p.toNat S']
    rw [List.filter_append]
    rw [List.filter_eq_self.2 (fun a ha => by simpa using hlt a ha)]
    rw [List.filter_eq_nil_iff.2 (fun a ha => by simpa using not_lt.2 (hge a ha))]
    rw [List.append_nil]
  · conv_lhs => rw [← List.take_append_drop p.toNat S']
    rw [List.filter_append]
    rw [List.filter_eq_nil_iff.2 (fun a ha => by simpa using hlt a ha)]
    rw [List.filter_eq_self.2 (fun a ha => by simpa using not_lt.2 (hge a ha))]
    rw [List.nil_append]

/-- C6 (amended): for every NON-EMPTY sequence `S` and pivot `v`, the
full-range run of `split_list` and the run of `_split_list` yield
equivalent splits: the multiset of the mutated sequence's left segment
`[0, p)` equals the multiset of the left bucket, and likewise on the
right.  (The empty sequence raises `IndexError`, see the
counterexample.) -/
theorem C6_amended_cross_oracle {α : Type} [LinearOrder α] (S : List α) (v : α)
    (hne : S ≠ []) :
    ∃ S' p, split_list S v 0 (S.length : Int) = .ok S' p ∧
      0 ≤ p ∧ p ≤ (S.length : Int) ∧
      (S'.take p.toNat).Perm (refSplitList S v).1 ∧
      (S'.drop p.toNat).Perm (refSplitList S v).2 := by
  have hlen0 : 0 < S.length := List.length_pos.2 hne
  obtain ⟨S', p, hrun, hp0, hpN, hlen, hLt, hGe, hperm, -⟩ :=
    split_list_run v (l := 0) (r := (S.length : Int)) (le_refl 0)
      (by exact_mod_cast hlen0) (le_refl _)
  have hGe' : rangeGe S' v p (S'.length : Int) := by
    rw [show (S'.length : Int) = (S.length : Int) by exact_mod_cast hlen]
    exact hGe
  obtain ⟨hfl, hfr⟩ := segments_are_filters hp0 (by omega) hLt hGe'
  have hb1 : (refSplitList S v).1 = S.filter (fun x => decide (x < v)) := by
    rw [refSplitList, splitRefLoop_spec v S ([], [])]
    simp
  have hb2 : (refSplitList S v).2 = S.filter (fun x => !decide (x < v)) := by
    rw [refSplitList, splitRefLoop_spec v S ([], [])]
    simp
  refine ⟨S', p, hrun, hp0, hpN, ?_, ?_⟩
  · rw [← hfl, hb1]
    exact hperm.filter _
  · rw [← hfr, hb2]
    exact hperm.filter _

/-- Witness for the amended C6: `S = [2, 1, 3]`, `v = 2`. -/
theorem C6_amended_cross_oracle_witness :
    ([2, 1, 3] : List Int) ≠ [] ∧
    ∃ S' p, split_list ([2, 1, 3] : List Int) 2 0 (([2, 1, 3] : List Int).length : Int) =
        .ok S' p ∧
      0 ≤ p ∧ p ≤ (([2, 1, 3] : List Int).length : Int) ∧
      (S'.take p.toNat).Perm (refSplitList ([2, 1, 3] : List Int) 2).1 ∧
      (S'.drop p.toNat).Perm (refSplitList ([2, 1, 3] : List Int) 2).2 :=
  ⟨by decide, C6_amended_cross_oracle [2, 1, 3] 2 (by decide)⟩

/-! ### The verification harness check -/

theorem pySorted_eq_of_perm {a b : List α} (h : a.Perm b) : pySorted a = pySorted b := by
  exact List.eq_of_perm_of_sorted
    ((List.perm_insertionSort _ a).trans (h.trans (List.perm_insertionSort _ b).symm))
    (List.sorted_insertionSort _ a) (List.sorted_insertionSort _ b)

theorem zip_all_eq_self (l : List α) : (l.zip l).all (fun pr => pr.1 == pr.2) = true := by
  induction l with
  | nil => rfl
  | cons x xs ih => simp [List.zip_cons_cons, List.all_cons, ih]

/-- C8 counterexample: the harness compares the two sides with
`zip(sorted(..), sorted(..))`, and Python's `zip` silently truncates to
the shorter list.  The pair `[1]` versus `[1, 2]` has different
multisets, yet the per-trial check succeeds, so the harness would NOT
stop — refuting "the check succeeds only if the multisets are equal /
whenever the multisets differ the harness stops". -/
theorem C8_counterexample :
    harnessCheck ([1] : List Int) [1, 2] = true ∧
    ¬ ([1] : List Int).Perm [1, 2] := by
  exact ⟨by decide, by decide⟩

/-- C8 (amended): the per-trial check is only one-sided: it succeeds
whenever the two multisets are equal (then the sorted sequences
coincide and the zipped comparison passes), but differing multisets can
also pass when one sorted sequence is a prefix of the other. -/
theorem C8_amended_check_passes_on_equal_multisets {α : Type} [LinearOrder α]
    (seg bucket : List α) (h : (seg : Multiset α) = (bucket : Multiset α)) :
    harnessCheck seg bucket = true := by
  have hp : seg.Perm bucket := Multiset.coe_eq_coe.1 h
  rw [harnessCheck, pySorted_eq_of_perm hp]
  exact zip_all_eq_self _

/-- Witness for the amended C8. -/
theorem C8_amended_check_passes_on_equal_multisets_witness :
    (([2, 1] : List Int) : Multiset Int) = (([1, 2] : List Int) : Multiset Int) ∧
    harnessCheck ([2, 1] : List Int) [1, 2] = true :=
  ⟨by decide, C8_amended_check_passes_on_equal_multisets [2, 1] [1, 2] (by decide)⟩

/-! ### Column folds of `min_max_scale` -/

theorem foldl_max_bounds (cs : List ℚ) : ∀ c : ℚ,
    c ≤ cs.foldl max c ∧ ∀ x ∈ cs, x ≤ cs.foldl max c := by
  induction cs with
  | nil => intro c; exact ⟨le_refl c, by simp⟩
  | cons y ys ih =>
    intro c
    obtain ⟨h1, h2⟩ := ih (max c y)
    refine ⟨le_trans (le_max_left c y) h1, ?_⟩
    intro x hx
    rcases List.mem_cons.1 hx with rfl | hx
    · exact le_trans (le_max_right c x) h1
    · exact h2 x hx

theorem foldl_max_le (cs : List ℚ) : ∀ c b : ℚ, c ≤ b → (∀ x ∈ cs, x ≤ b) →
    cs.foldl max c ≤ b := by
  induction cs with
  | nil => intro c b hc _; exact hc
  | cons y ys ih =>
    intro c b hc h
    exact ih (max c y) b (max_le hc (h y (List.mem_cons_self y ys)))
      (fun x hx => h x (List.mem_cons_of_mem y hx))

theorem foldl_min_bounds (cs : List ℚ) : ∀ c : ℚ,
    cs.foldl min c ≤ c ∧ ∀ x ∈ cs, cs.foldl min c ≤ x := by
  induction cs with
  | nil => intro c; exact ⟨le_refl c, by simp⟩
  | cons y ys ih =>
    intro c
    obtain ⟨h1, h2⟩ := ih (min c y)
    refine ⟨le_trans h1 (min_le_left c y), ?_⟩
    intro x hx
    rcases List.mem_cons.1 hx with rfl | hx
    · exact le_trans h1 (min_le_right c x)
    · exact h2 x hx

theorem le_foldl_min (cs : List ℚ) : ∀ c b : ℚ, b ≤ c → (∀ x ∈ cs, b ≤ x) →
    b ≤ cs.foldl min c := by
  induction cs with
  | nil => intro c b hc _; exact hc
  | cons y ys ih =>
    intro c b hc h
    exact ih (min c y) b (le_min hc (h y (List.mem_cons_self y ys)))
      (fun x hx => h x (List.mem_cons_of_mem y hx))

theorem val_le_colMax {X : List (List ℚ)} {j : Nat} {x : ℚ}
    (hne : X ≠ []) (hx : x ∈ colVals X j) : x ≤ colMax X j := by
  rcases X with - | ⟨X0, Xr⟩
  · exact absurd rfl hne
  · have hcv : colVals (X0 :: Xr) j = X0.getD j 0 :: colVals Xr j := rfl
    rw [hcv] at hx
    rw [colMax, hcv]
    rcases List.mem_cons.1 hx with rfl | hx
    · exact (foldl_max_bounds (colVals Xr j) _).1
    · exact (foldl_max_bounds (colVals Xr j) (X0.getD j 0)).2 x hx

theorem colMin_le_val {X : List (List ℚ)} {j : Nat} {x : ℚ}
    (hne : X ≠ []) (hx : x ∈ colVals X j) : colMin X j ≤ x := by
  rcases X with - | ⟨X0, Xr⟩
  · exact absurd rfl hne
  · have hcv : colVals (X0 :: Xr) j = X0.getD j 0 :: colVals Xr j := rfl
    rw [hcv] at hx
    rw [colMin, hcv]
    rcases List.mem_cons.1 hx with rfl | hx
    · exact (foldl_min_bounds (colVals Xr j) _).1
    · exact (foldl_min_bounds (colVals Xr j) (X0.getD j 0)).2 x hx

theorem colMax_le {X : List (List ℚ)} {j : Nat} {b : ℚ}
    (hne : X ≠ []) (hb : ∀ x ∈ colVals X j, x ≤ b) : colMax X j ≤ b := by
  rcases X with - | ⟨X0, Xr⟩
  · exact absurd rfl hne
  · rw [colMax]
    exact foldl_max_le (colVals Xr j) _ b (hb _ (List.mem_cons_self _ _))
      (fun x hx => hb x (List.mem_cons_of_mem _ hx))

theorem le_colMin {X : List (List ℚ)} {j : Nat} {b : ℚ}
    (hne : X ≠ []) (hb : ∀ x ∈ colVals X j, b ≤ x) : b ≤ colMin X j := by
  rcases X with - | ⟨X0, Xr⟩
  · exact absurd rfl hne
  · rw [colMin]
    exact le_foldl_min (colVals Xr j) _ b (hb _ (List.mem_cons_self _ _))
      (fun x hx => hb x (List.mem_cons_of_mem _ hx))

theorem foldMax_pointwise (m : Nat) :
    ∀ (rows : List (List ℚ)) (acc : List (Option ℚ)),
    (∀ row ∈ rows, row.length = m) → acc.length = m →
    (rows.foldl foldMax acc).length = m ∧
    (∀ j, j < m → (rows.foldl foldMax acc)[j]? =
      some ((colVals rows j).foldl (fun a x => some (omax a x)) (acc.getD j none))) := by
  intro rows
  induction rows with
  | nil =>
    intro acc _ hacc
    refine ⟨hacc, fun j hj => ?_⟩
    have hjl : j < acc.length := by omega
    simp [colVals, List.getElem?_eq_getElem hjl, List.getD_eq_getElem?_getD,
      List.foldl_nil]
  | cons row rest ih =>
    intro acc hrows hacc
    have hrow : row.length = m := hrows row (List.mem_cons_self _ _)
    have hacc' : (foldMax acc row).length = m := by
      simp [foldMax, List.length_zipWith, hacc, hrow]
    obtain ⟨hL, hP⟩ := ih (foldMax acc row)
      (fun r hr => hrows r (List.mem_cons_of_mem _ hr)) hacc'
    refine ⟨hL, fun j hj => ?_⟩
    have hjacc : j < acc.length := by omega
    have hjrow : j < row.length := by omega
    have hgd : (foldMax acc row).getD j none =
        some (omax (acc.getD j none) (row.getD j 0)) := by
      rw [List.getD_eq_getElem?_getD, foldMax, List.getElem?_zipWith,
        List.getElem?_eq_getElem hjacc, List.getElem?_eq_getElem hjrow,
        List.getD_eq_getElem?_getD, List.getElem?_eq_getElem hjacc,
        List.getD_eq_getElem?_getD, List.getElem?_eq_getElem hjrow]
      rfl
    have hcv : colVals (row :: rest) j = row.getD j 0 :: colVals rest j := rfl
    rw [List.foldl_cons, hP j hj, hcv, List.foldl_cons, hgd]

theorem foldMin_pointwise (m : Nat) :
    ∀ (rows : List (List ℚ)) (acc : List (Option ℚ)),
    (∀ row ∈ rows, row.length = m) → acc.length = m →
    (rows.foldl foldMin acc).length = m ∧
    (∀ j, j < m → (rows.foldl foldMin acc)[j]? =
      some ((colVals rows j).foldl (fun a x => some (omin a x)) (acc.getD j none))) := by
  intro rows
  induction rows with
  | nil =>
    intro acc _ hacc
    refine ⟨hacc, fun j hj => ?_⟩
    have hjl : j < acc.length := by omega
    simp [colVals, List.getElem?_eq_getElem hjl, List.getD_eq_getElem?_getD,
      List.foldl_nil]
  | cons row rest ih =>
    intro acc hrows hacc
    have hrow : row.length = m := hrows row (List.mem_cons_self _ _)
    have hacc' : (foldMin acc row).length = m := by
      simp [foldMin, List.length_zipWith, hacc, hrow]
    obtain ⟨hL, hP⟩ := ih (foldMin acc row)
      (fun r hr => hrows r (List.mem_cons_of_mem _ hr)) hacc'
    refine ⟨hL, fun j hj => ?_⟩
    have hjacc : j < acc.length := by omega
    have hjrow : j < row.length := by omega
    have hgd : (foldMin acc row).getD j none =
        some (omin (acc.getD j none) (row.getD j 0)) := by
      rw [List.getD_eq_getElem?_getD, foldMin, List.getElem?_zipWith,
        List.getElem?_eq_getElem hjacc, List.getElem?_eq_getElem hjrow,
        List.getD_eq_getElem?_getD, List.getElem?_eq_getElem hjacc,
        List.getD_eq_getElem?_getD, List.getElem?_eq_getElem hjrow]
      rfl
    have hcv : colVals (row :: rest) j = row.getD j 0 :: colVals rest j := rfl
    rw [List.foldl_cons, hP j hj, hcv, List.foldl_cons, hgd]

theorem foldl_omax_some (cs : List ℚ) : ∀ a : ℚ,
    cs.foldl (fun a x => some (omax a x)) (some a) = some (cs.foldl max a) := by
  induction cs with
  | nil => intro a; rfl
  | cons c cs ih => intro a; exact ih (max a c)

theorem foldl_omin_some (cs : List ℚ) : ∀ a : ℚ,
    cs.foldl (fun a x => some (omin a x)) (some a) = some (cs.foldl min a) := by
  induction cs with
  | nil => intro a; rfl
  | cons c cs ih => intro a; exact ih (min a c)

/-- The max accumulator of `min_max_scale` on a non-empty rectangular
input holds exactly the column maxima. -/
theorem xmax_entries (X0 : List ℚ) (Xr : List (List ℚ))
    (hrect : ∀ row ∈ X0 :: Xr, row.length = X0.length) :
    ((X0 :: Xr).foldl foldMax (List.replicate X0.length (none : Option ℚ))).length
        = X0.length ∧
    ∀ j, j < X0.length →
      ((X0 :: Xr).foldl foldMax (List.replicate X0.length (none : Option ℚ)))[j]? =
        some (some (colMax (X0 :: Xr) j)) := by
  obtain ⟨hL, hP⟩ := foldMax_pointwise X0.length (X0 :: Xr)
    (List.replicate X0.length none) hrect (List.length_replicate _ _)
  refine ⟨hL, fun j hj => ?_⟩
  rw [hP j hj]
  have hrep : (List.replicate X0.length (none : Option ℚ)).getD j none = none := by
    rw [List.getD_eq_getElem?_getD, List.getElem?_replicate, if_pos hj]
    rfl
  have hcv : colVals (X0 :: Xr) j = X0.getD j 0 :: colVals Xr j := rfl
  rw [hrep, hcv, List.foldl_cons]
  have homax : omax none (X0.getD j 0) = X0.getD j 0 := rfl
  rw [homax, foldl_omax_some]
  rfl

/-- The min accumulator holds exactly the column minima. -/
theorem xmin_entries (X0 : List ℚ) (Xr : List (List ℚ))
    (hrect : ∀ row ∈ X0 :: Xr, row.length = X0.length) :
    ((X0 :: Xr).foldl foldMin (List.replicate X0.length (none : Option ℚ))).length
        = X0.length ∧
    ∀ j, j < X0.length →
      ((X0 :: Xr).foldl foldMin (List.replicate X0.length (none : Option ℚ)))[j]? =
        some (some (colMin (X0 :: Xr) j)) := by
  obtain ⟨hL, hP⟩ := foldMin_pointwise X0.length (X0 :: Xr)
    (List.replicate X0.length none) hrect (List.length_replicate _ _)
  refine ⟨hL, fun j hj => ?_⟩
  rw [hP j hj]
  have hrep : (List.replicate X0.length (none : Option ℚ)).getD j none = none := by
    rw [List.getD_eq_getElem?_getD, List.getElem?_replicate, if_pos hj]
    rfl
  have hcv : colVals (X0 :: Xr) j = X0.getD j 0 :: colVals Xr j := rfl
  rw [hrep, hcv, List.foldl_cons]
  have homin : omin none (X0.getD j 0) = X0.getD j 0 := rfl
  rw [homin, foldl_omin_some]
  rfl

/-! ### Row scaling of `min_max_scale` -/

theorem scaleRow_ok : ∀ (row : List ℚ) (as bs : List (Option ℚ)) (aj bj : Nat → ℚ),
    as.length = row.length → bs.length = row.length →
    (∀ j, j < row.length → as[j]? = some (some (aj j)) ∧ bs[j]? = some (some (bj j)) ∧
      aj j - bj j ≠ 0) →
    scaleRow as bs row =
      .ok ((List.range row.length).map fun j => (row.getD j 0 - bj j) / (aj j - bj j)) := by
  intro row
  induction row with
  | nil =>
    intro as bs aj bj ha hb _
    rw [List.length_eq_zero.1 ha, List.length_eq_zero.1 hb]
    rfl
  | cons x xs ih =>
    intro as bs aj bj ha hb h
    rcases as with - | ⟨a0, as'⟩
    · simp at ha
    rcases bs with - | ⟨b0, bs'⟩
    · simp at hb
    obtain ⟨ha0, hb0, hd0⟩ := h 0 (by simp)
    have ha0' : a0 = some (aj 0) := by simpa using ha0
    have hb0' : b0 = some (bj 0) := by simpa using hb0
    subst ha0' hb0'
    have hrec := ih as' bs' (fun j => aj (j + 1)) (fun j => bj (j + 1))
      (by simpa using ha) (by simpa using hb)
      (fun j hj => by simpa using h (j + 1) (by simpa using hj))
    simp only [scaleRow, if_neg hd0, hrec]
    have hrange : List.range (x :: xs).length = 0 :: (List.range xs.length).map Nat.succ := by
      simpa using List.range_succ_eq_map xs.length
    rw [hrange]
    simp only [List.map_cons, List.map_map]
    rfl

theorem scaleRow_err : ∀ (row : List ℚ) (as bs : List (Option ℚ)) (aj bj : Nat → ℚ),
    as.length = row.length → bs.length = row.length →
    (∀ j, j < row.length → as[j]? = some (some (aj j)) ∧ bs[j]? = some (some (bj j))) →
    (∃ j, j < row.length ∧ aj j - bj j = 0) →
    scaleRow as bs row = .error .zeroDivisionError := by
  intro row
  induction row with
  | nil =>
    intro as bs aj bj _ _ _ hex
    obtain ⟨j, hj, -⟩ := hex
    simp at hj
  | cons x xs ih =>
    intro as bs aj bj ha hb h hex
    rcases as with - | ⟨a0, as'⟩
    · simp at ha
    rcases bs with - | ⟨b0, bs'⟩
    · simp at hb
    obtain ⟨ha0, hb0⟩ := h 0 (by simp)
    have ha0' : a0 = some (aj 0) := by simpa using ha0
    have hb0' : b0 = some (bj 0) := by simpa using hb0
    subst ha0' hb0'
    by_cases hd0 : aj 0 - bj 0 = 0
    · simp only [scaleRow, if_pos hd0]
    · obtain ⟨j, hj, hdj⟩ := hex
      rcases j with - | j'
      · exact absurd hdj hd0
      have hrec := ih as' bs' (fun j => aj (j + 1)) (fun j => bj (j + 1))
        (by simpa using ha) (by simpa using hb)
        (fun j hjj => by simpa using h (j + 1) (by simpa using hjj))
        ⟨j', by simpa using hj, hdj⟩
      simp only [scaleRow, if_neg hd0, hrec]
      rfl

theorem scaleRows_ok (as bs : List (Option ℚ)) (f : List ℚ → List ℚ) :
    ∀ X : List (List ℚ), (∀ row ∈ X, scaleRow as bs row = .ok (f row)) →
    scaleRows as bs X = .ok (X.map f) := by
  intro X
  induction X with
  | nil => intro _; rfl
  | cons row rest ih =>
    intro h
    have h0 := h row (List.mem_cons_self _ _)
    have hr := ih (fun r hr => h r (List.mem_cons_of_mem _ hr))
    simp only [scaleRows, h0, hr, List.map_cons]
    rfl

theorem scaleRows_err_head (as bs : List (Option ℚ)) (row : List ℚ)
    (rest : List (List ℚ)) {e : PyErr} (h : scaleRow as bs row = .error e) :
    scaleRows as bs (row :: rest) = .error e := by
  simp only [scaleRows, h]
  rfl

/-- C9: for every non-empty rectangular 2d input `X`: if every column has
two distinct values, `min_max_scale` returns a fresh matrix whose entry
`i, j` is `(X[i][j] - colMin j) / (colMax j - colMin j)`, a value in
`[0, 1]`; if some column is constant, the call raises
`ZeroDivisionError`. -/
theorem C9_min_max_scale (X : List (List ℚ)) (hne : X ≠ [])
    (hrect : ∀ row ∈ X, row.length = X.headI.length) :
    ((∀ j, j < X.headI.length → ∃ r1 ∈ X, ∃ r2 ∈ X, r1.getD j 0 ≠ r2.getD j 0) →
      ∃ ret, min_max_scale X = .ok ret ∧ ret.length = X.length ∧
        (∀ (i : Nat) (row : List ℚ), X[i]? = some row →
          ret[i]? = some ((List.range X.headI.length).map fun j =>
            (row.getD j 0 - colMin X j) / (colMax X j - colMin X j))) ∧
        (∀ res ∈ ret, ∀ val ∈ res, 0 ≤ val ∧ val ≤ 1)) ∧
    ((∃ j, j < X.headI.length ∧ ∀ r1 ∈ X, ∀ r2 ∈ X, r1.getD j 0 = r2.getD j 0) →
      min_max_scale X = .error PyErr.zeroDivisionError) := by
  obtain ⟨X0, Xr, rfl⟩ := List.exists_cons_of_ne_nil hne
  have hh : (X0 :: Xr).headI = X0 := rfl
  rw [hh] at hrect ⊢
  obtain ⟨hmxL, hmxP⟩ := xmax_entries X0 Xr hrect
  obtain ⟨hmnL, hmnP⟩ := xmin_entries X0 Xr hrect
  constructor
  · -- every column has two distinct values: success with the formula
    intro hnd
    have hlt : ∀ j, j < X0.length → colMin (X0 :: Xr) j < colMax (X0 :: Xr) j := by
      intro j hj
      obtain ⟨r1, hr1, r2, hr2, hne12⟩ := hnd j hj
      have h1 : r1.getD j 0 ∈ colVals (X0 :: Xr) j := List.mem_map_of_mem _ hr1
      have h2 : r2.getD j 0 ∈ colVals (X0 :: Xr) j := List.mem_map_of_mem _ hr2
      by_contra hle
      push_neg at hle
      have hA1 := val_le_colMax (List.cons_ne_nil X0 Xr) h1
      have hA2 := val_le_colMax (List.cons_ne_nil X0 Xr) h2
      have hB1 := colMin_le_val (List.cons_ne_nil X0 Xr) h1
      have hB2 := colMin_le_val (List.cons_ne_nil X0 Xr) h2
      exact hne12 (le_antisymm (by linarith) (by linarith))
    have hdne : ∀ j, j < X0.length →
        colMax (X0 :: Xr) j - colMin (X0 :: Xr) j ≠ 0 :=
      fun j hj => sub_ne_zero.2 (ne_of_gt (hlt j hj))
    have hrows : ∀ row ∈ X0 :: Xr,
        scaleRow ((X0 :: Xr).foldl foldMax (List.replicate X0.length none))
          ((X0 :: Xr).foldl foldMin (List.replicate X0.length none)) row =
        .ok ((List.range X0.length).map fun j =>
          (row.getD j 0 - colMin (X0 :: Xr) j) /
            (colMax (X0 :: Xr) j - colMin (X0 :: Xr) j)) := by
      intro row hr
      have hrl : row.length = X0.length := hrect row hr
      have h := scaleRow_ok row
        ((X0 :: Xr).foldl foldMax (List.replicate X0.length none))
        ((X0 :: Xr).foldl foldMin (List.replicate X0.length none))
        (colMax (X0 :: Xr)) (colMin (X0 :: Xr))
        (hmxL.trans hrl.symm) (hmnL.trans hrl.symm)
        (fun j hj => ⟨hmxP j (by omega), hmnP j (by omega), hdne j (by omega)⟩)
      rw [h, hrl]
    have hall := scaleRows_ok _ _ _ (X0 :: Xr) hrows
    refine ⟨(X0 :: Xr).map (fun row => (List.range X0.length).map fun j =>
      (row.getD j 0 - colMin (X0 :: Xr) j) /
        (colMax (X0 :: Xr) j - colMin (X0 :: Xr) j)), ?_, by simp, ?_, ?_⟩
    · simp only [min_max_scale]
      exact hall
    · intro i row hrow
      rw [List.getElem?_map, hrow]
      rfl
    · intro res hres val hval
      obtain ⟨row, hrow, rfl⟩ := List.mem_map.1 hres
      obtain ⟨j, hjm, rfl⟩ := List.mem_map.1 hval
      have hj : j < X0.length := List.mem_range.1 hjm
      have hx : row.getD j 0 ∈ colVals (X0 :: Xr) j := List.mem_map_of_mem _ hrow
      have hxM := val_le_colMax (List.cons_ne_nil X0 Xr) hx
      have hxm := colMin_le_val (List.cons_ne_nil X0 Xr) hx
      have hpos : 0 < colMax (X0 :: Xr) j - colMin (X0 :: Xr) j :=
        sub_pos.2 (hlt j hj)
      constructor
      · exact div_nonneg (by linarith) (le_of_lt hpos)
      · exact (div_le_one hpos).2 (by linarith)
  · -- a constant column: ZeroDivisionError
    rintro ⟨j, hj, hconst⟩
    have hc : ∀ x ∈ colVals (X0 :: Xr) j, x = X0.getD j 0 := by
      intro x hx
      obtain ⟨r, hr, rfl⟩ := List.mem_map.1 hx
      exact hconst r hr X0 (List.mem_cons_self _ _)
    have hX0v : X0.getD j 0 ∈ colVals (X0 :: Xr) j :=
      List.mem_map_of_mem _ (List.mem_cons_self _ _)
    have hMeq : colMax (X0 :: Xr) j = X0.getD j 0 :=
      le_antisymm (colMax_le (List.cons_ne_nil X0 Xr)
        (fun x hx => le_of_eq (hc x hx))) (val_le_colMax (List.cons_ne_nil X0 Xr) hX0v)
    have hmeq : colMin (X0 :: Xr) j = X0.getD j 0 :=
      le_antisymm (colMin_le_val (List.cons_ne_nil X0 Xr) hX0v)
        (le_colMin (List.cons_ne_nil X0 Xr) (fun x hx => le_of_eq (hc x hx).symm))
    have herr := scaleRow_err X0
      ((X0 :: Xr).foldl foldMax (List.replicate X0.length none))
      ((X0 :: Xr).foldl foldMin (List.replicate X0.length none))
      (colMax (X0 :: Xr)) (colMin (X0 :: Xr)) hmxL hmnL
      (fun j' hj' => ⟨hmxP j' hj', hmnP j' hj'⟩)
      ⟨j, hj, by rw [hMeq, hmeq]; ring⟩
    simp only [min_max_scale]
    exact scaleRows_err_head _ _ _ _ herr

/-- Witness for C9: `X = [[0, 4], [2, 8]]` (both columns non-constant). -/
theorem C9_min_max_scale_witness :
    ([[0, 4], [2, 8]] : List (List ℚ)) ≠ [] ∧
    (∀ row ∈ ([[0, 4], [2, 8]] : List (List ℚ)),
      row.length = ([[0, 4], [2, 8]] : List (List ℚ)).headI.length) ∧
    (((∀ j, j < ([[0, 4], [2, 8]] : List (List ℚ)).headI.length →
        ∃ r1 ∈ ([[0, 4], [2, 8]] : List (List ℚ)),
        ∃ r2 ∈ ([[0, 4], [2, 8]] : List (List ℚ)), r1.getD j 0 ≠ r2.getD j 0) →
      ∃ ret, min_max_scale ([[0, 4], [2, 8]] : List (List ℚ)) = .ok ret ∧
        ret.length = ([[0, 4], [2, 8]] : List (List ℚ)).length ∧
        (∀ (i : Nat) (row : List ℚ), ([[0, 4], [2, 8]] : List (List ℚ))[i]? = some row →
          ret[i]? = some ((List.range ([[0, 4], [2, 8]] : List (List ℚ)).headI.length).map
            fun j => (row.getD j 0 - colMin ([[0, 4], [2, 8]] : List (List ℚ)) j) /
              (colMax ([[0, 4], [2, 8]] : List (List ℚ)) j -
                colMin ([[0, 4], [2, 8]] : List (List ℚ)) j))) ∧
        (∀ res ∈ ret, ∀ val ∈ res, 0 ≤ val ∧ val ≤ 1)) ∧
    ((∃ j, j < ([[0, 4], [2, 8]] : List (List ℚ)).headI.length ∧
        ∀ r1 ∈ ([[0, 4], [2, 8]] : List (List ℚ)),
        ∀ r2 ∈ ([[0, 4], [2, 8]] : List (List ℚ)), r1.getD j 0 = r2.getD j 0) →
      min_max_scale ([[0, 4], [2, 8]] : List (List ℚ)) = .error PyErr.zeroDivisionError)) :=
  ⟨by decide, by decide,
    C9_min_max_scale [[0, 4], [2, 8]] (by decide) (by decide)⟩

/-! ### `train_test_split` -/

theorem ttsLoop_spec {γ δ : Type} (X : List γ) (y : List δ) (prob : ℚ)
    (draws : Nat → ℚ) :
    ∀ (rem i : Nat) (xtr xte : List γ) (ytr yte : List δ),
    i + rem = X.length → X.length ≤ y.length →
    ttsLoop X y prob draws rem i xtr xte ytr yte = some
      (xtr ++ ((List.range' i rem).filter fun k =>
        decide (draws k < prob)).filterMap (fun k => X[k]?),
       xte ++ ((List.range' i rem).filter fun k =>
        !decide (draws k < prob)).filterMap (fun k => X[k]?),
       ytr ++ ((List.range' i rem).filter fun k =>
        decide (draws k < prob)).filterMap (fun k => y[k]?),
       yte ++ ((List.range' i rem).filter fun k =>
        !decide (draws k < prob)).filterMap (fun k => y[k]?)) := by
  intro rem
  induction rem with
  | zero =>
    intro i xtr xte ytr yte hi hy
    simp [ttsLoop, List.range']
  | succ rem ih =>
    intro i xtr xte ytr yte hi hy
    have hiX : i < X.length := by omega
    have hiy : i < y.length := by omega
    have hX : X[i]? = some X[i] := List.getElem?_eq_getElem hiX
    have hY : y[i]? = some y[i] := List.getElem?_eq_getElem hiy
    rw [ttsLoop, hX, hY]
    simp only [List.range'_succ, List.filter_cons]
    by_cases hd : draws i < prob
    · rw [if_pos hd, ih (i + 1) (xtr ++ [X[i]]) xte (ytr ++ [y[i]]) yte (by omega) hy]
      simp [hd, List.filterMap_cons, hX, hY]
    · rw [if_neg hd, ih (i + 1) xtr (xte ++ [X[i]]) ytr (yte ++ [y[i]]) (by omega) hy]
      simp [hd, List.filterMap_cons, hX, hY]

theorem filterMap_getElem?_length {γ : Type} (X : List γ) :
    ∀ l : List Nat, (∀ i ∈ l, i < X.length) →
    (l.filterMap fun i => X[i]?).length = l.length := by
  intro l
  induction l with
  | nil => intro _; rfl
  | cons i rest ih =>
    intro h
    have hi : i < X.length := h i (List.mem_cons_self _ _)
    rw [List.filterMap_cons, List.getElem?_eq_getElem hi]
    simp [ih (fun k hk => h k (List.mem_cons_of_mem _ hk))]

/-- C10: for `len(y) ≥ len(X)`, any `prob`, and any outcome of the random
source, `train_test_split` partitions the rows of `X`: each index goes to
exactly one side (to train exactly when its draw is `< prob`), relative
order is preserved on both sides, `X_train`/`y_train` and
`X_test`/`y_test` have equal lengths, and the pair `(X[i], y[i])` lands
on the same side at the same position. -/
theorem C10_train_test_split {γ δ : Type} (X : List γ) (y : List δ) (prob : ℚ)
    (draws : Nat → ℚ) (hlen : X.length ≤ y.length) :
    ∃ A B C D, train_test_split X y prob draws = some (A, B, C, D) ∧
      A = (trainIdx X.length prob draws).filterMap (fun i => X[i]?) ∧
      B = (testIdx X.length prob draws).filterMap (fun i => X[i]?) ∧
      C = (trainIdx X.length prob draws).filterMap (fun i => y[i]?) ∧
      D = (testIdx X.length prob draws).filterMap (fun i => y[i]?) ∧
      A.length = C.length ∧ B.length = D.length ∧
      A.length + B.length = X.length := by
  have hrun := ttsLoop_spec X y prob draws X.length 0 [] [] [] [] (by omega) hlen
  have hr0 : List.range' 0 X.length = List.range X.length := by
    rw [List.range_eq_range']
  rw [hr0] at hrun
  have htr : ∀ i ∈ trainIdx X.length prob draws, i < X.length := by
    intro i hi
    exact List.mem_range.1 (List.mem_of_mem_filter hi)
  have hte : ∀ i ∈ testIdx X.length prob draws, i < X.length := by
    intro i hi
    exact List.mem_range.1 (List.mem_of_mem_filter hi)
  refine ⟨_, _, _, _, ?_, rfl, rfl, rfl, rfl, ?_, ?_, ?_⟩
  · rw [train_test_split, hrun]
    simp only [List.nil_append]
    rfl
  · rw [filterMap_getElem?_length X _ htr,
      filterMap_getElem?_length y _ (fun i hi => by have := htr i hi; omega)]
  · rw [filterMap_getElem?_length X _ hte,
      filterMap_getElem?_length y _ (fun i hi => by have := hte i hi; omega)]
  · rw [filterMap_getElem?_length X _ htr, filterMap_getElem?_length X _ hte]
    have hp := (List.filter_append_perm
      (fun i => decide (draws i < prob)) (List.range X.length)).length_eq
    rw [List.length_append, List.length_range] at hp
    exact hp

/-- Witness for C10: `X = [10, 20, 30]`, `y = [1, 2, 3]`,
`prob = 1/2`, draws `0, 9/10, 0, ...` (index 1 goes to test). -/
theorem C10_train_test_split_witness :
    (([10, 20, 30] : List Int).length ≤ ([1, 2, 3] : List Int).length) ∧
    ∃ A B C D, train_test_split ([10, 20, 30] : List Int) ([1, 2, 3] : List Int)
        (1 / 2) (fun i => if i = 1 then 9 / 10 else 0) = some (A, B, C, D) ∧
      A = (trainIdx ([10, 20, 30] : List Int).length (1 / 2)
        (fun i => if i = 1 then 9 / 10 else 0)).filterMap
          (fun i => ([10, 20, 30] : List Int)[i]?) ∧
      B = (testIdx ([10, 20, 30] : List Int).length (1 / 2)
        (fun i => if i = 1 then 9 / 10 else 0)).filterMap
          (fun i => ([10, 20, 30] : List Int)[i]?) ∧
      C = (trainIdx ([10, 20, 30] : List Int).length (1 / 2)
        (fun i => if i = 1 then 9 / 10 else 0)).filterMap
          (fun i => ([1, 2, 3] : List Int)[i]?) ∧
      D = (testIdx ([10, 20, 30] : List Int).length (1 / 2)
        (fun i => if i = 1 then 9 / 10 else 0)).filterMap
          (fun i => ([1, 2, 3] : List Int)[i]?) ∧
      A.length = C.length ∧ B.length = D.length ∧
      A.length + B.length = ([10, 20, 30] : List Int).length :=
  ⟨by decide, C10_train_test_split [10, 20, 30] [1, 2, 3] (1 / 2)
    (fun i => if i = 1 then 9 / 10 else 0) (by decide)⟩
